import Mathlib

/-!
Shallow embedding of the GeoLifeMap temporal interpolation and ranking
pipeline (`src/life_map_bar_anim.py`), together with proofs of its
specified properties.

Values (`life`) are modelled as rationals; dataframes are lists of rows;
`NaN` cells arising from the outer merge are modelled with `Option`.
`pandas.sort_values("life", ascending=False)` is modelled as a stable
descending sort on the `life` column.
-/

set_option maxHeartbeats 1000000

namespace GeoLifeMap

/-- One row of a yearly table as built by `fetch_year_df`:
columns `iso3`, `life`, `continent`. -/
structure Row where
  iso3 : String
  life : ℚ
  continent : String
deriving Repr, DecidableEq

/-- One row of a ranked table: the three data columns plus the
`rank` column assigned by `df["rank"] = df.index + 1`. -/
structure RankedRow where
  iso3 : String
  life : ℚ
  continent : String
  rank : ℕ
deriving Repr, DecidableEq

/-- Forgets the `rank` column (`df[["iso3", "life", "continent"]]`). -/
def RankedRow.toRow (r : RankedRow) : Row :=
  ⟨r.iso3, r.life, r.continent⟩

/-! ## Stable descending sort, modelling `df.sort_values("life", ascending=False)` -/

/-- Stable insertion into a descending-sorted list: `x` is placed before
the first element whose key is not greater or equal, so elements with
equal keys keep their original relative order. -/
def insertDescBy {α : Type} (key : α → ℚ) (x : α) : List α → List α
  | [] => [x]
  | y :: ys => if key y ≤ key x then x :: y :: ys else y :: insertDescBy key x ys

/-- Stable descending insertion sort by `key`. -/
def sortDescBy {α : Type} (key : α → ℚ) : List α → List α
  | [] => []
  | x :: xs => insertDescBy key x (sortDescBy key xs)

/-! ## Rank assignment, modelling
`df = df.sort_values("life", ascending=False).reset_index(drop=True); df["rank"] = df.index + 1` -/

/-- Assigns consecutive ranks starting at `n` down a list of rows
(`df["rank"] = df.index + 1` applied after `reset_index`). -/
def assignRanks : List Row → ℕ → List RankedRow
  | [], _ => []
  | r :: rs, n => ⟨r.iso3, r.life, r.continent, n⟩ :: assignRanks rs (n + 1)

/-- Ranking of a yearly table: stable descending sort on `life`, then
1-based positional ranks. -/
def rank_df (df : List Row) : List RankedRow :=
  assignRanks (sortDescBy Row.life df) 1

/-- The same two ranking lines applied to a table that already carries a
`rank` column: the old ranks are ignored by the sort and overwritten. -/
def rerank_df (df : List RankedRow) : List RankedRow :=
  assignRanks ((sortDescBy RankedRow.life df).map RankedRow.toRow) 1

/-! ## Interpolation, modelling `interpolate_df` -/

/-- Keyed lookup of the first row with a given `iso3` code. -/
def lookupRow (df : List Row) (id : String) : Option Row :=
  df.find? (fun r => r.iso3 == id)

/-- One row of `a.merge(b, on="iso3", how="outer", suffixes=("_0","_1"))`
where `a` carries `iso3, life, continent` and `b` carries `iso3, life`:
cells that the outer join leaves empty (pandas `NaN`) are `none`. -/
structure MergedRow where
  iso3 : String
  life0 : Option ℚ
  life1 : Option ℚ
  continent : Option String
deriving Repr, DecidableEq

/-- Outer merge on `iso3`: every left row (joined with its match in `b`
when present), then the unmatched right rows. -/
def outerMerge (a b : List Row) : List MergedRow :=
  a.map (fun r => ⟨r.iso3, some r.life, (lookupRow b r.iso3).map Row.life, some r.continent⟩)
    ++ (b.filter (fun r => (lookupRow a r.iso3).isNone)).map
        (fun r => ⟨r.iso3, none, some r.life, none⟩)

/-- The three `life` assignments of `interpolate_df`:
the linear blend (NaN when either side is NaN), then fall back to
`life_0`, then to `life_1`. -/
def interpLife (l0 l1 : Option ℚ) (t : ℚ) : Option ℚ :=
  let lerp : Option ℚ :=
    match l0, l1 with
    | some a, some b => some (a + (b - a) * t)
    | _, _ => none
  let s1 : Option ℚ :=
    match lerp with
    | some v => some v
    | none => l0
  match s1 with
  | some v => some v
  | none => l1

/-- Faithful model of `interpolate_df(df0, df1, t)`: outer merge on
`iso3`, continent from `df0` with `"Other"` as fill, the interpolated
`life` with carry-forward fallbacks, `dropna` on `life`, then the
descending sort and 1-based rank assignment. -/
def interpolate_df (df0 df1 : List Row) (t : ℚ) : List RankedRow :=
  let merged := outerMerge df0 df1
  let vals := merged.filterMap (fun m =>
    (interpLife m.life0 m.life1 t).map
      (fun v => Row.mk m.iso3 v (m.continent.getD "Other")))
  rank_df vals

/-- Value of a left (i.e. present-in-`df0`) row after interpolation:
blended when the identity is also in `df1`, carried forward otherwise. -/
def interpRowLeft (b : List Row) (t : ℚ) (r : Row) : Row :=
  match lookupRow b r.iso3 with
  | some rb => ⟨r.iso3, r.life + (rb.life - r.life) * t, r.continent⟩
  | none => ⟨r.iso3, r.life, r.continent⟩

/-! ## Cache, modelling `fetch_year_df` over an abstract fetch oracle -/

/-- On-disk cache: at most one persisted table per year
(`cache_life_csv/life_{year}.csv`). -/
abbrev CacheState := List (Int × List Row)

/-- Reads the persisted table for a year, when the file exists. -/
def cacheLookup (st : CacheState) (y : Int) : Option (List Row) :=
  (st.find? (fun e => e.1 == y)).map (fun e => e.2)

/-- Writes (or overwrites) the persisted table for a year
(`df.to_csv(cache_path)`). -/
def insertEntry (st : CacheState) (y : Int) (df : List Row) : CacheState :=
  (y, df) :: st.filter (fun e => e.1 != y)

/-- Removes the persisted table for a year, used only to compare a state
holding an empty entry with the entry-free state. -/
def eraseEntry (st : CacheState) (y : Int) : CacheState :=
  st.filter (fun e => e.1 != y)

/-- Faithful model of `fetch_year_df(year)`: the per-country HTTP loop is
abstracted as an oracle `fetcher` returning the table that loop would
build for a year. Result: the returned table, the cache state afterwards,
and whether the fetch path ran (i.e. the Fetcher was invoked). -/
def fetch_year_df (fetcher : Int → List Row) (st : CacheState) (year : Int) :
    List Row × CacheState × Bool :=
  match cacheLookup st year with
  | some df =>
      if df ≠ [] then (df, st, false)
      else if fetcher year = [] then (fetcher year, st, true)
      else (fetcher year, insertEntry st year (fetcher year), true)
  | none =>
      if fetcher year = [] then (fetcher year, st, true)
      else (fetcher year, insertEntry st year (fetcher year), true)

/-- The loop body of `find_latest_available_year`: probes `y` and counts
down the remaining window. -/
def find_latest_go (fetcher : Int → List Row) : CacheState → Int → ℕ → Int
  | _, y, 0 => y
  | st, y, r + 1 =>
      if (fetch_year_df fetcher st y).1 ≠ [] then y
      else find_latest_go fetcher (fetch_year_df fetcher st y).2.1 (y - 1) r

/-- Faithful model of `find_latest_available_year(candidate, max_back)`:
probes `candidate, candidate-1, …` over `max_back` steps through
`fetch_year_df`, returning `candidate - max_back` when every probe in the
window is empty. -/
def find_latest_available_year (fetcher : Int → List Row) (st : CacheState)
    (candidate : Int) (max_back : ℕ) : Int :=
  find_latest_go fetcher st candidate max_back

/-! ## Movement detection, modelling the `moved` computation in `render_frame` -/

/-- Faithful model of the moved-set computation inside `render_frame`:
`df_bar` is the current top-`top_n` slice by value; an identity is marked
when the previous table assigns it a rank and the absolute rank
difference is at least `alpha`. -/
def render_frame_moved (df_year : List RankedRow)
    (df_prev : Option (List RankedRow)) (alpha : ℕ) (top_n : ℕ) : List String :=
  let df_bar := (sortDescBy RankedRow.life df_year).take top_n
  match df_prev with
  | none => []
  | some prev =>
      if prev = [] then []
      else
        df_bar.filterMap (fun r =>
          match prev.find? (fun p => p.iso3 == r.iso3) with
          | some p =>
              if alpha ≤ ((p.rank : ℤ) - (r.rank : ℤ)).natAbs then some r.iso3
              else none
          | none => none)

/-! ## Frame sequencing, modelling the frame loop of `main_race` -/

/-- One emitted frame of `main_race`: the table handed to `render_frame`
together with the `df_prev` argument handed alongside it. -/
structure FrameRec where
  df : List RankedRow
  prev : Option (List RankedRow)
deriving Repr, DecidableEq

/-- Emits a list of tables in order, threading the previous-frame
reference (`prev_df = df_t` after each `render_frame` call); returns the
frames and the final previous-frame reference. -/
def emitAll : List (List RankedRow) → Option (List RankedRow) →
    List FrameRec × Option (List RankedRow)
  | [], prev => ([], prev)
  | d :: rest, prev =>
      let res := emitAll rest (some d)
      (⟨d, prev⟩ :: res.1, res.2)

/-- The `steps` interpolated tables of one year pair, at `t = s/steps`
for `s = 0, …, steps-1` (the loop `for s in range(steps)`). -/
def pairStepDfs (df0 df1 : List RankedRow) (steps : ℕ) : List (List RankedRow) :=
  (List.range steps).map (fun s =>
    interpolate_df (df0.map RankedRow.toRow) (df1.map RankedRow.toRow)
      ((s : ℚ) / (steps : ℚ)))

/-- The year-pair loop of `main_race`: for each `y` of the list, when
both `y` and `y+1` have tables, emit the `steps` interpolated frames;
otherwise skip the pair, leaving `prev_df` untouched. -/
def racePairs (ydfs : Int → Option (List RankedRow)) (steps : ℕ) :
    Option (List RankedRow) → List Int → List FrameRec × Option (List RankedRow)
  | prev, [] => ([], prev)
  | prev, y :: rest =>
      match ydfs y, ydfs (y + 1) with
      | some d0, some d1 =>
          let res := emitAll (pairStepDfs d0 d1 steps) prev
          let res2 := racePairs ydfs steps res.2 rest
          (res.1 ++ res2.1, res2.2)
      | _, _ => racePairs ydfs steps prev rest

/-- Python `range(start, end)` over integers. -/
def yearRange (start endY : Int) : List Int :=
  (List.range (endY - start).toNat).map (fun i => start + (i : Int))

/-- Faithful model of the frame loop of `main_race`: the pair loop over
`range(start, end)` followed by one final real frame for year `end` when
its table exists (`# 最後の年を1枚`). -/
def main_race_frames (ydfs : Int → Option (List RankedRow)) (start endY : Int)
    (steps : ℕ) : List FrameRec :=
  match ydfs endY with
  | some dfLast =>
      (racePairs ydfs steps none (yearRange start endY)).1
        ++ [⟨dfLast, (racePairs ydfs steps none (yearRange start endY)).2⟩]
  | none => (racePairs ydfs steps none (yearRange start endY)).1

/-- Checks that each emitted frame's `prev` is exactly the table of the
frame emitted just before it, starting from `p`. -/
def prevChainOk : Option (List RankedRow) → List FrameRec → Bool
  | _, [] => true
  | p, f :: rest => if f.prev = p then prevChainOk (some f.df) rest else false

/-- The previous-frame reference left after emitting `fs` on top of `p`. -/
def lastPrev (p : Option (List RankedRow)) (fs : List FrameRec) :
    Option (List RankedRow) :=
  match fs.getLast? with
  | some f => some f.df
  | none => p

/-- The interpolated-frame tables of all present year pairs, in order. -/
def interpFrameDfs (ydfs : Int → Option (List RankedRow)) (steps : ℕ) :
    List Int → List (List RankedRow)
  | [] => []
  | y :: rest =>
      (match ydfs y, ydfs (y + 1) with
        | some d0, some d1 => pairStepDfs d0 d1 steps
        | _, _ => []) ++ interpFrameDfs ydfs steps rest

/-- Concrete three-year schedule used to refute C6: years 0, 1, 2 all
have ranked tables, and year 2 brings a new entity. -/
def cexYdfs : Int → Option (List RankedRow) := fun y =>
  if y = 0 then some [⟨"XXX", 1, "Asia", 1⟩]
  else if y = 1 then some [⟨"XXX", 2, "Asia", 1⟩]
  else if y = 2 then some [⟨"XXX", 3, "Asia", 1⟩, ⟨"YYY", 1, "Asia", 2⟩]
  else none

/-- Fetch oracle for the C5 witness: 2019–2021 empty, 2018 populated. -/
def resolverFetch : Int → List Row := fun y =>
  if y = 2018 then [⟨"JPN", 81, "Asia"⟩] else []

theorem insertDescBy_perm {α : Type} (key : α → ℚ) (x : α) (l : List α) :
    (insertDescBy key x l).Perm (x :: l) := by
  induction l with
  | nil => exact List.Perm.refl _
  | cons y ys ih =>
    by_cases h : key y ≤ key x
    · simp [insertDescBy, h]
    · simpa [insertDescBy, h] using (ih.cons y).trans (List.Perm.swap x y ys)

theorem sortDescBy_perm {α : Type} (key : α → ℚ) (l : List α) :
    (sortDescBy key l).Perm l := by
  induction l with
  | nil => exact List.Perm.refl _
  | cons x xs ih =>
    exact (insertDescBy_perm key x (sortDescBy key xs)).trans (ih.cons x)

theorem mem_insertDescBy {α : Type} (key : α → ℚ) (x a : α) (l : List α) :
    a ∈ insertDescBy key x l ↔ a = x ∨ a ∈ l := by
  simpa using (insertDescBy_perm key x l).mem_iff (a := a)

theorem sorted_insertDescBy {α : Type} (key : α → ℚ) (x : α) (l : List α)
    (h : l.Pairwise (fun a b => key b ≤ key a)) :
    (insertDescBy key x l).Pairwise (fun a b => key b ≤ key a) := by
  induction l with
  | nil => simp [insertDescBy]
  | cons y ys ih =>
    rcases List.pairwise_cons.mp h with ⟨hy, hys⟩
    by_cases hle : key y ≤ key x
    · rw [insertDescBy, if_pos hle]
      refine List.pairwise_cons.mpr ⟨?_, h⟩
      intro b hb
      rcases List.mem_cons.mp hb with rfl | hb
      · exact hle
      · exact le_trans (hy b hb) hle
    · rw [insertDescBy, if_neg hle]
      refine List.pairwise_cons.mpr ⟨?_, ih hys⟩
      intro b hb
      rcases (mem_insertDescBy key x b ys).mp hb with rfl | hb
      · exact le_of_lt (lt_of_not_le hle)
      · exact hy b hb

theorem sortDescBy_sorted {α : Type} (key : α → ℚ) (l : List α) :
    (sortDescBy key l).Pairwise (fun a b => key b ≤ key a) := by
  induction l with
  | nil => simp [sortDescBy]
  | cons x xs ih => exact sorted_insertDescBy key x _ ih

/-- Inserting on top of a descending-sorted list whose head is not above
`x` just conses. -/
theorem insertDescBy_of_head {α : Type} (key : α → ℚ) (x y : α) (ys : List α)
    (h : key y ≤ key x) : insertDescBy key x (y :: ys) = x :: y :: ys := by
  simp [insertDescBy, h]

/-- Sorting an already descending-sorted list leaves it unchanged
(this is where stability on ties matters). -/
theorem sortDescBy_of_sorted {α : Type} (key : α → ℚ) (l : List α)
    (h : l.Pairwise (fun a b => key b ≤ key a)) :
    sortDescBy key l = l := by
  induction l with
  | nil => rfl
  | cons x xs ih =>
    rcases List.pairwise_cons.mp h with ⟨hx, hxs⟩
    have hs : sortDescBy key (x :: xs) = insertDescBy key x xs := by
      simp [sortDescBy, ih hxs]
    cases xs with
    | nil => simp [sortDescBy, insertDescBy]
    | cons y ys =>
      rw [hs]
      exact insertDescBy_of_head key x y ys (hx y (List.mem_cons_self y ys))

theorem assignRanks_length (l : List Row) (n : ℕ) :
    (assignRanks l n).length = l.length := by
  induction l generalizing n with
  | nil => rfl
  | cons r rs ih => simp [assignRanks, ih]

theorem assignRanks_map_rank (l : List Row) (n : ℕ) :
    (assignRanks l n).map RankedRow.rank = List.range' n l.length := by
  induction l generalizing n with
  | nil => rfl
  | cons r rs ih => simp [assignRanks, ih, List.range'_succ]

theorem assignRanks_map_toRow (l : List Row) (n : ℕ) :
    (assignRanks l n).map RankedRow.toRow = l := by
  induction l generalizing n with
  | nil => rfl
  | cons r rs ih => simp [assignRanks, RankedRow.toRow, ih]

theorem mem_assignRanks {b : RankedRow} {l : List Row} {n : ℕ}
    (h : b ∈ assignRanks l n) :
    b.toRow ∈ l := by
  induction l generalizing n with
  | nil => simp [assignRanks] at h
  | cons r rs ih =>
    rcases List.mem_cons.mp h with rfl | h
    · exact List.mem_cons_self _ _
    · exact List.mem_cons_of_mem _ (ih h)

theorem mem_assignRanks_of_mem {a : Row} {l : List Row} (n : ℕ) (h : a ∈ l) :
    ∃ b ∈ assignRanks l n, b.toRow = a := by
  induction l generalizing n with
  | nil => simp at h
  | cons r rs ih =>
    rcases List.mem_cons.mp h with rfl | h
    · exact ⟨_, List.mem_cons_self _ _, rfl⟩
    · obtain ⟨b, hb, hba⟩ := ih (n + 1) h
      exact ⟨b, List.mem_cons_of_mem _ hb, hba⟩

theorem assignRanks_pairwise_life {l : List Row} {n : ℕ}
    (h : l.Pairwise (fun a b => Row.life b ≤ Row.life a)) :
    (assignRanks l n).Pairwise (fun a b => RankedRow.life b ≤ RankedRow.life a) := by
  induction l generalizing n with
  | nil => simp [assignRanks]
  | cons r rs ih =>
    rcases List.pairwise_cons.mp h with ⟨hr, hrs⟩
    refine List.pairwise_cons.mpr ⟨?_, ih hrs⟩
    intro b hb
    have := hr b.toRow (mem_assignRanks hb)
    simpa [RankedRow.toRow] using this

/-- Membership in a ranked table projects to the unranked table and back. -/
theorem mem_rank_df_iff (df : List Row) (b : RankedRow) :
    (∃ a ∈ df, b.toRow = a) ↔ ∃ c ∈ rank_df df, c.toRow = b.toRow := by
  constructor
  · rintro ⟨a, ha, hba⟩
    have ha' : a ∈ sortDescBy Row.life df := (sortDescBy_perm Row.life df).mem_iff.mpr ha
    obtain ⟨c, hc, hca⟩ := mem_assignRanks_of_mem 1 ha'
    exact ⟨c, hc, by rw [hca, hba]⟩
  · rintro ⟨c, hc, hcb⟩
    have := mem_assignRanks hc
    exact ⟨c.toRow, (sortDescBy_perm Row.life df).mem_iff.mp this, hcb.symm⟩

theorem filterMap_eq_map_of_some {α β : Type} (g : α → Option β) (f : α → β)
    (l : List α) (h : ∀ a ∈ l, g a = some (f a)) :
    l.filterMap g = l.map f := by
  induction l with
  | nil => rfl
  | cons x xs ih =>
    rw [List.filterMap_cons, h x (List.mem_cons_self x xs), List.map_cons,
      ih (fun a ha => h a (List.mem_cons_of_mem x ha))]

/-- The pre-ranking value table of `interpolate_df`: no row is ever
dropped by `dropna` (each merged row has a value on at least one side),
left rows keep their continent, unmatched right rows get `"Other"`. -/
theorem interpolate_vals_eq (df0 df1 : List Row) (t : ℚ) :
    (outerMerge df0 df1).filterMap (fun m =>
        (interpLife m.life0 m.life1 t).map
          (fun v => Row.mk m.iso3 v (m.continent.getD "Other")))
      = df0.map (interpRowLeft df1 t)
        ++ (df1.filter (fun r => (lookupRow df0 r.iso3).isNone)).map
            (fun r => Row.mk r.iso3 r.life "Other") := by
  rw [outerMerge, List.filterMap_append, List.filterMap_map, List.filterMap_map]
  congr 1
  · refine filterMap_eq_map_of_some _ _ _ (fun r _ => ?_)
    simp only [Function.comp]
    cases h : lookupRow df1 r.iso3 with
    | none => simp [interpLife, interpRowLeft, h]
    | some rb => simp [interpLife, interpRowLeft, h]
  · refine filterMap_eq_map_of_some _ _ _ (fun r _ => ?_)
    simp [interpLife]

/-- Unfolding of `interpolate_df` through the value-table description. -/
theorem interpolate_df_eq (df0 df1 : List Row) (t : ℚ) :
    interpolate_df df0 df1 t
      = rank_df (df0.map (interpRowLeft df1 t)
          ++ (df1.filter (fun r => (lookupRow df0 r.iso3).isNone)).map
              (fun r => Row.mk r.iso3 r.life "Other")) := by
  rw [interpolate_df, interpolate_vals_eq]

theorem lookupRow_mem {df : List Row} {id : String} {r : Row}
    (h : lookupRow df id = some r) : r ∈ df :=
  List.mem_of_find?_eq_some h

theorem lookupRow_key {df : List Row} {id : String} {r : Row}
    (h : lookupRow df id = some r) : r.iso3 = id := by
  have := List.find?_some h
  simpa using this

theorem lookupRow_eq_none {df : List Row} {id : String}
    (h : lookupRow df id = none) : ∀ r ∈ df, r.iso3 ≠ id := by
  intro r hr
  have := List.find?_eq_none.mp h r hr
  simpa using this

theorem lookupRow_isSome_of_mem {df : List Row} {a : Row} {id : String}
    (h : a ∈ df) (hk : a.iso3 = id) : (lookupRow df id).isSome :=
  List.find?_isSome.mpr ⟨a, h, by simp [hk]⟩

theorem exists_mem_rank_df {df : List Row} {a : Row} (h : a ∈ df) :
    ∃ c ∈ rank_df df, c.toRow = a := by
  have h' : a ∈ sortDescBy Row.life df := (sortDescBy_perm Row.life df).mem_iff.mpr h
  exact mem_assignRanks_of_mem 1 h'

theorem mem_rank_df_toRow {df : List Row} {c : RankedRow} (h : c ∈ rank_df df) :
    c.toRow ∈ df :=
  (sortDescBy_perm Row.life df).mem_iff.mp (mem_assignRanks h)

theorem interpRowLeft_iso3 (b : List Row) (t : ℚ) (r : Row) :
    (interpRowLeft b t r).iso3 = r.iso3 := by
  rw [interpRowLeft]
  cases lookupRow b r.iso3 <;> rfl

/-- Identity in both endpoints: the result carries the linear blend and
the `df0` continent. -/
theorem interp_mem_both (df0 df1 : List Row) (t : ℚ) (id : String) (rA rB : Row)
    (h0 : lookupRow df0 id = some rA) (h1 : lookupRow df1 id = some rB) :
    ∃ r ∈ interpolate_df df0 df1 t,
      r.iso3 = id ∧ r.life = rA.life + (rB.life - rA.life) * t
        ∧ r.continent = rA.continent := by
  have hmem := lookupRow_mem h0
  have hkey := lookupRow_key h0
  have hx : (⟨id, rA.life + (rB.life - rA.life) * t, rA.continent⟩ : Row)
      ∈ df0.map (interpRowLeft df1 t)
        ++ (df1.filter (fun r => (lookupRow df0 r.iso3).isNone)).map
            (fun r => Row.mk r.iso3 r.life "Other") := by
    apply List.mem_append_left
    refine List.mem_map.mpr ⟨rA, hmem, ?_⟩
    simp [interpRowLeft, hkey, h1]
  rw [interpolate_df_eq]
  obtain ⟨c, hc, hcx⟩ := exists_mem_rank_df hx
  refine ⟨c, hc, ?_, ?_, ?_⟩
  · simpa [RankedRow.toRow] using congrArg Row.iso3 hcx
  · simpa [RankedRow.toRow] using congrArg Row.life hcx
  · simpa [RankedRow.toRow] using congrArg Row.continent hcx

/-- Identity only in `df0`: the single known value and its continent are
carried forward unchanged. -/
theorem interp_mem_left (df0 df1 : List Row) (t : ℚ) (id : String) (rA : Row)
    (h0 : lookupRow df0 id = some rA) (h1 : lookupRow df1 id = none) :
    ∃ r ∈ interpolate_df df0 df1 t,
      r.iso3 = id ∧ r.life = rA.life ∧ r.continent = rA.continent := by
  have hmem := lookupRow_mem h0
  have hkey := lookupRow_key h0
  have hx : (⟨id, rA.life, rA.continent⟩ : Row)
      ∈ df0.map (interpRowLeft df1 t)
        ++ (df1.filter (fun r => (lookupRow df0 r.iso3).isNone)).map
            (fun r => Row.mk r.iso3 r.life "Other") := by
    apply List.mem_append_left
    refine List.mem_map.mpr ⟨rA, hmem, ?_⟩
    simp [interpRowLeft, hkey, h1]
  rw [interpolate_df_eq]
  obtain ⟨c, hc, hcx⟩ := exists_mem_rank_df hx
  refine ⟨c, hc, ?_, ?_, ?_⟩
  · simpa [RankedRow.toRow] using congrArg Row.iso3 hcx
  · simpa [RankedRow.toRow] using congrArg Row.life hcx
  · simpa [RankedRow.toRow] using congrArg Row.continent hcx

/-- Identity only in `df1`: the single known value is carried forward and
the continent falls back to `"Other"` (never taken from `df1`). -/
theorem interp_mem_right (df0 df1 : List Row) (t : ℚ) (id : String) (rB : Row)
    (h0 : lookupRow df0 id = none) (h1 : lookupRow df1 id = some rB) :
    ∃ r ∈ interpolate_df df0 df1 t,
      r.iso3 = id ∧ r.life = rB.life ∧ r.continent = "Other" := by
  have hmem := lookupRow_mem h1
  have hkey := lookupRow_key h1
  have hx : (⟨id, rB.life, "Other"⟩ : Row)
      ∈ df0.map (interpRowLeft df1 t)
        ++ (df1.filter (fun r => (lookupRow df0 r.iso3).isNone)).map
            (fun r => Row.mk r.iso3 r.life "Other") := by
    apply List.mem_append_right
    refine List.mem_map.mpr ⟨rB, ?_, by rw [hkey]⟩
    exact List.mem_filter.mpr ⟨hmem, by rw [hkey, h0]; rfl⟩
  rw [interpolate_df_eq]
  obtain ⟨c, hc, hcx⟩ := exists_mem_rank_df hx
  refine ⟨c, hc, ?_, ?_, ?_⟩
  · simpa [RankedRow.toRow] using congrArg Row.iso3 hcx
  · simpa [RankedRow.toRow] using congrArg Row.life hcx
  · simpa [RankedRow.toRow] using congrArg Row.continent hcx

/-- Identities absent from both endpoints never appear in the result. -/
theorem interp_not_mem (df0 df1 : List Row) (t : ℚ) (id : String)
    (h0 : lookupRow df0 id = none) (h1 : lookupRow df1 id = none) :
    ∀ r ∈ interpolate_df df0 df1 t, r.iso3 ≠ id := by
  intro r hr heq
  rw [interpolate_df_eq] at hr
  have hv := mem_rank_df_toRow hr
  rcases List.mem_append.mp hv with hL | hR
  · rcases List.mem_map.mp hL with ⟨a, ha, hae⟩
    have hai : a.iso3 = id := by
      have := congrArg Row.iso3 hae
      rw [interpRowLeft_iso3] at this
      simpa [RankedRow.toRow, heq] using this
    exact lookupRow_eq_none h0 a ha hai
  · rcases List.mem_map.mp hR with ⟨b, hb, hbe⟩
    have hbd := List.mem_filter.mp hb
    have hbi : b.iso3 = id := by
      have := congrArg Row.iso3 hbe
      simpa [RankedRow.toRow, heq] using this
    exact lookupRow_eq_none h1 b hbd.1 hbi

/-- Every result row whose identity is absent from `df0` has continent
`"Other"`: the continent column of `df1` is never consulted. -/
theorem interp_continent_of_not_left (df0 df1 : List Row) (t : ℚ) :
    ∀ r ∈ interpolate_df df0 df1 t,
      lookupRow df0 r.iso3 = none → r.continent = "Other" := by
  intro r hr h0
  rw [interpolate_df_eq] at hr
  have hv := mem_rank_df_toRow hr
  rcases List.mem_append.mp hv with hL | hR
  · rcases List.mem_map.mp hL with ⟨a, ha, hae⟩
    have hai : a.iso3 = r.iso3 := by
      have := congrArg Row.iso3 hae
      rw [interpRowLeft_iso3] at this
      simpa [RankedRow.toRow] using this
    exact absurd (lookupRow_eq_none h0 a ha) (by simp [hai])
  · rcases List.mem_map.mp hR with ⟨b, _, hbe⟩
    have := congrArg Row.continent hbe
    simpa [RankedRow.toRow] using this.symm

theorem rank_df_map_rank (l : List Row) :
    (rank_df l).map RankedRow.rank = List.range' 1 l.length := by
  rw [rank_df, assignRanks_map_rank, (sortDescBy_perm Row.life l).length_eq]

theorem rank_df_sorted (l : List Row) :
    (rank_df l).Pairwise (fun a b => RankedRow.life b ≤ RankedRow.life a) :=
  assignRanks_pairwise_life (sortDescBy_sorted Row.life l)

theorem rank_df_length (l : List Row) : (rank_df l).length = l.length := by
  rw [rank_df, assignRanks_length, (sortDescBy_perm Row.life l).length_eq]

theorem rank_df_map_iso3_perm (l : List Row) :
    ((rank_df l).map RankedRow.iso3).Perm (l.map Row.iso3) := by
  have h1 : (rank_df l).map RankedRow.iso3
      = ((rank_df l).map RankedRow.toRow).map Row.iso3 := by
    rw [List.map_map]; rfl
  rw [h1, rank_df, assignRanks_map_toRow]
  exact (sortDescBy_perm Row.life l).map Row.iso3

/-- The key column of the pre-ranking value table of `interpolate_df`. -/
theorem interp_vals_map_iso3 (df0 df1 : List Row) (t : ℚ) :
    (df0.map (interpRowLeft df1 t)
      ++ (df1.filter (fun r => (lookupRow df0 r.iso3).isNone)).map
          (fun r => Row.mk r.iso3 r.life "Other")).map Row.iso3
    = df0.map Row.iso3
      ++ (df1.filter (fun r => (lookupRow df0 r.iso3).isNone)).map Row.iso3 := by
  rw [List.map_append, List.map_map, List.map_map]
  congr 1
  exact List.map_congr_left (fun a _ => interpRowLeft_iso3 df1 t a)

/-- With duplicate-free key columns on both endpoints, the interpolated
key column is duplicate-free. -/
theorem interp_keys_nodup (df0 df1 : List Row) (t : ℚ)
    (hA : (df0.map Row.iso3).Nodup) (hB : (df1.map Row.iso3).Nodup) :
    ((interpolate_df df0 df1 t).map RankedRow.iso3).Nodup := by
  rw [interpolate_df_eq]
  refine ((rank_df_map_iso3_perm _).nodup_iff).mpr ?_
  rw [interp_vals_map_iso3, List.nodup_append]
  refine ⟨hA, ?_, ?_⟩
  · exact hB.sublist ((List.filter_sublist df1).map Row.iso3)
  · intro x hx0 hx1
    rcases List.mem_map.mp hx1 with ⟨b, hb, hbx⟩
    have hbd := List.mem_filter.mp hb
    rcases List.mem_map.mp hx0 with ⟨a, ha, hax⟩
    have hs : (lookupRow df0 b.iso3).isSome := by
      rw [hbx]
      exact lookupRow_isSome_of_mem ha hax
    rw [Option.isSome_iff_ne_none] at hs
    exact hs (Option.isNone_iff_eq_none.mp hbd.2)

/-- An identity appears in the interpolated result iff it appears in at
least one of the two endpoints. -/
theorem interp_keys_mem (df0 df1 : List Row) (t : ℚ) (id : String) :
    id ∈ (interpolate_df df0 df1 t).map RankedRow.iso3
      ↔ id ∈ df0.map Row.iso3 ∨ id ∈ df1.map Row.iso3 := by
  rw [interpolate_df_eq, (rank_df_map_iso3_perm _).mem_iff, interp_vals_map_iso3,
    List.mem_append]
  constructor
  · rintro (h | h)
    · exact Or.inl h
    · rcases List.mem_map.mp h with ⟨b, hb, hbx⟩
      exact Or.inr (List.mem_map.mpr ⟨b, (List.mem_filter.mp hb).1, hbx⟩)
  · rintro (h | h)
    · exact Or.inl h
    · rcases List.mem_map.mp h with ⟨b, hb, hbx⟩
      cases h0 : lookupRow df0 id with
      | some a =>
        exact Or.inl (List.mem_map.mpr ⟨a, lookupRow_mem h0, lookupRow_key h0⟩)
      | none =>
        refine Or.inr (List.mem_map.mpr ⟨b, List.mem_filter.mpr ⟨hb, ?_⟩, hbx⟩)
        rw [hbx, h0]; rfl

theorem cacheLookup_insertEntry_self (st : CacheState) (y : Int) (df : List Row) :
    cacheLookup (insertEntry st y df) y = some df := by
  simp [cacheLookup, insertEntry, List.find?_cons]

theorem cacheLookup_eraseEntry (st : CacheState) (y : Int) :
    cacheLookup (eraseEntry st y) y = none := by
  have hfind : (List.filter (fun e => e.1 != y) st).find? (fun e => e.1 == y)
      = none := by
    rw [List.find?_eq_none]
    intro e he
    have hef := (List.mem_filter.mp he).2
    simp only [bne_iff_ne, ne_eq, decide_eq_true_eq] at hef
    simpa using hef
  rw [cacheLookup, eraseEntry, hfind]
  rfl

theorem fetch_year_df_empty_result_state (f : Int → List Row) (st : CacheState)
    (y : Int) (h : (fetch_year_df f st y).1 = []) :
    (fetch_year_df f st y).2.1 = st := by
  rw [fetch_year_df] at h ⊢
  cases hc : cacheLookup st y with
  | some df =>
      by_cases hd : df = []
      · subst hd
        by_cases hf : f y = [] <;> simp_all [hc, hf]
      · simp_all [hc, hd]
  | none =>
      by_cases hf : f y = [] <;> simp_all [hc, hf]

theorem find_latest_go_none (f : Int → List Row) :
    ∀ (r : ℕ) (st : CacheState) (y : Int),
      (∀ j : ℕ, j < r → (fetch_year_df f st (y - (j : Int))).1 = []) →
      find_latest_go f st y r = y - (r : Int) := by
  intro r
  induction r with
  | zero => intro st y _; simp [find_latest_go]
  | succ n ih =>
    intro st y h
    have h0 : (fetch_year_df f st y).1 = [] := by
      simpa using h 0 (Nat.succ_pos n)
    rw [find_latest_go, if_neg (by simpa using h0),
      fetch_year_df_empty_result_state f st y h0]
    have hrec := ih st (y - 1) (fun j hj => by
      have hcast : y - 1 - (j : Int) = y - ((j : ℕ) + 1 : ℕ) := by push_cast; ring
      rw [hcast]
      exact h (j + 1) (Nat.succ_lt_succ hj))
    rw [hrec]
    push_cast
    ring

theorem find_latest_go_found (f : Int → List Row) :
    ∀ (k r : ℕ) (st : CacheState) (y : Int), k < r →
      (∀ j : ℕ, j < k → (fetch_year_df f st (y - (j : Int))).1 = []) →
      (fetch_year_df f st (y - (k : Int))).1 ≠ [] →
      find_latest_go f st y r = y - (k : Int) := by
  intro k
  induction k with
  | zero =>
    intro r st y hk _ hne
    obtain ⟨n, rfl⟩ : ∃ n, r = n + 1 := ⟨r - 1, by omega⟩
    rw [find_latest_go, if_pos (by simpa using hne)]
    simp
  | succ m ih =>
    intro r st y hk h hne
    obtain ⟨n, rfl⟩ : ∃ n, r = n + 1 := ⟨r - 1, by omega⟩
    have h0 : (fetch_year_df f st y).1 = [] := by
      simpa using h 0 (Nat.succ_pos m)
    rw [find_latest_go, if_neg (by simpa using h0),
      fetch_year_df_empty_result_state f st y h0]
    have hcast : ∀ j : ℕ, y - 1 - (j : Int) = y - ((j : ℕ) + 1 : ℕ) := by
      intro j; push_cast; ring
    have hrec := ih n st (y - 1) (by omega)
      (fun j hj => by rw [hcast j]; exact h (j + 1) (by omega))
      (by rw [hcast m]; exact hne)
    rw [hrec]
    push_cast
    ring

theorem lastPrev_cons (p : Option (List RankedRow)) (f : FrameRec)
    (fs : List FrameRec) : lastPrev p (f :: fs) = lastPrev (some f.df) fs := by
  cases fs with
  | nil => rfl
  | cons g gs =>
    rw [lastPrev, lastPrev, List.getLast?_cons_cons]
    cases h : (g :: gs).getLast? with
    | some x => rfl
    | none => simp at h

theorem lastPrev_append (p : Option (List RankedRow)) (xs ys : List FrameRec) :
    lastPrev p (xs ++ ys) = lastPrev (lastPrev p xs) ys := by
  induction xs generalizing p with
  | nil => rfl
  | cons f fs ih => rw [List.cons_append, lastPrev_cons, lastPrev_cons, ih]

theorem prevChainOk_append (p : Option (List RankedRow)) (xs ys : List FrameRec) :
    prevChainOk p (xs ++ ys)
      = (prevChainOk p xs && prevChainOk (lastPrev p xs) ys) := by
  induction xs generalizing p with
  | nil => simp [prevChainOk, lastPrev]
  | cons f fs ih =>
    rw [List.cons_append, prevChainOk, prevChainOk, lastPrev_cons]
    by_cases hp : f.prev = p
    · simp [hp, ih]
    · simp [hp]

theorem emitAll_fst_map (ds : List (List RankedRow))
    (p : Option (List RankedRow)) :
    (emitAll ds p).1.map FrameRec.df = ds := by
  induction ds generalizing p with
  | nil => rfl
  | cons d rest ih => simp [emitAll, ih]

theorem emitAll_snd (ds : List (List RankedRow)) (p : Option (List RankedRow)) :
    (emitAll ds p).2 = lastPrev p (emitAll ds p).1 := by
  induction ds generalizing p with
  | nil => rfl
  | cons d rest ih =>
    rw [emitAll]
    rw [lastPrev_cons]
    exact ih (some d)

theorem emitAll_chain (ds : List (List RankedRow)) (p : Option (List RankedRow)) :
    prevChainOk p (emitAll ds p).1 = true := by
  induction ds generalizing p with
  | nil => rfl
  | cons d rest ih =>
    rw [emitAll, prevChainOk]
    simp [ih]

theorem racePairs_spec (ydfs : Int → Option (List RankedRow)) (steps : ℕ) :
    ∀ (ys : List Int) (prev : Option (List RankedRow)),
      (racePairs ydfs steps prev ys).1.map FrameRec.df
          = interpFrameDfs ydfs steps ys
        ∧ prevChainOk prev (racePairs ydfs steps prev ys).1 = true
        ∧ (racePairs ydfs steps prev ys).2
          = lastPrev prev (racePairs ydfs steps prev ys).1 := by
  intro ys
  induction ys with
  | nil => intro prev; exact ⟨rfl, rfl, rfl⟩
  | cons y rest ih =>
    intro prev
    rw [racePairs, interpFrameDfs]
    cases h0 : ydfs y with
    | none =>
      simpa using ih prev
    | some d0 =>
      cases h1 : ydfs (y + 1) with
      | none => simpa using ih prev
      | some d1 =>
        obtain ⟨ihm, ihc, ihl⟩ := ih (emitAll (pairStepDfs d0 d1 steps) prev).2
        refine ⟨?_, ?_, ?_⟩
        · simp [List.map_append, emitAll_fst_map, ihm]
        · rw [prevChainOk_append, emitAll_chain, ← emitAll_snd, ihc]
          rfl
        · rw [lastPrev_append, ← emitAll_snd, ihl]

/-! ## Claim theorems -/

/-- C1: `fetch_year_df` is read-through with no negative caching: a
persisted non-empty entry for the year is returned without invoking the
Fetcher; otherwise the Fetcher is called — a non-empty result is
persisted keyed by year and returned, while an empty result is returned
without persisting, so a second call after an empty fetch invokes the
Fetcher again. -/
theorem fetch_year_df_read_through (f : Int → List Row) (st : CacheState) (y : Int) :
    (∀ df, cacheLookup st y = some df → df ≠ [] →
        fetch_year_df f st y = (df, st, false))
    ∧ (cacheLookup st y = none →
        (fetch_year_df f st y).2.2 = true
        ∧ (f y ≠ [] →
            fetch_year_df f st y = (f y, insertEntry st y (f y), true)
            ∧ cacheLookup (fetch_year_df f st y).2.1 y = some (f y))
        ∧ (f y = [] →
            fetch_year_df f st y = ([], st, true)
            ∧ (fetch_year_df f ((fetch_year_df f st y).2.1) y).2.2 = true)) := by
  refine ⟨?_, ?_⟩
  · intro df h hne
    simp [fetch_year_df, h, hne]
  · intro h
    refine ⟨?_, ?_, ?_⟩
    · by_cases hf : f y = [] <;> simp [fetch_year_df, h, hf]
    · intro hf
      have he : fetch_year_df f st y = (f y, insertEntry st y (f y), true) := by
        simp [fetch_year_df, h, hf]
      refine ⟨he, ?_⟩
      rw [he]
      exact cacheLookup_insertEntry_self st y (f y)
    · intro hf
      have he : fetch_year_df f st y = ([], st, true) := by
        simp [fetch_year_df, h, hf]
      refine ⟨he, ?_⟩
      rw [he]
      simp [fetch_year_df, h, hf]

/-- Witness for C1: an empty cache plus a successful fetch persists the
fetched table keyed by the year and reports the Fetcher as invoked. -/
theorem fetch_year_df_read_through_witness :
    fetch_year_df (fun _ => [⟨"JPN", 81, "Asia"⟩]) [] 2000
        = ([⟨"JPN", 81, "Asia"⟩], [(2000, [⟨"JPN", 81, "Asia"⟩])], true)
      ∧ cacheLookup (fetch_year_df (fun _ => [⟨"JPN", 81, "Asia"⟩]) [] 2000).2.1 2000
        = some [⟨"JPN", 81, "Asia"⟩] := by
  have h := (fetch_year_df_read_through (fun _ => [⟨"JPN", 81, "Asia"⟩]) [] 2000).2 rfl
  have h2 := h.2.1 (by decide)
  exact ⟨h2.1, h2.2⟩

/-- C10: an empty persisted entry never short-circuits retrieval:
`fetch_year_df` does not return the cached empty table but falls through
to a fresh fetch, returning exactly what it would return were the entry
absent, and persisting a non-empty fetch result. -/
theorem fetch_year_df_empty_entry (f : Int → List Row) (st : CacheState) (y : Int)
    (h : cacheLookup st y = some []) :
    (fetch_year_df f st y).1 = f y
    ∧ (fetch_year_df f st y).2.2 = true
    ∧ (f y ≠ [] → (fetch_year_df f st y).2.1 = insertEntry st y (f y))
    ∧ (fetch_year_df f st y).1 = (fetch_year_df f (eraseEntry st y) y).1 := by
  have herase : cacheLookup (eraseEntry st y) y = none := cacheLookup_eraseEntry st y
  by_cases hf : f y = []
  · refine ⟨?_, ?_, ?_, ?_⟩ <;>
      simp [fetch_year_df, h, herase, hf]
  · refine ⟨?_, ?_, ?_, ?_⟩ <;>
      simp [fetch_year_df, h, herase, hf]

/-- Witness for C10: with an empty entry persisted for 2000, the call
returns the freshly fetched table and reports the Fetcher as invoked. -/
theorem fetch_year_df_empty_entry_witness :
    (fetch_year_df (fun _ => [⟨"JPN", 81, "Asia"⟩]) [(2000, [])] 2000).1
        = [⟨"JPN", 81, "Asia"⟩]
    ∧ (fetch_year_df (fun _ => [⟨"JPN", 81, "Asia"⟩]) [(2000, [])] 2000).2.2 = true := by
  have h := fetch_year_df_empty_entry (fun _ => [⟨"JPN", 81, "Asia"⟩])
    [(2000, [])] 2000 (by rfl)
  exact ⟨h.1, h.2.1⟩

/-- C2: for every `t ∈ [0,1]`, `interpolate_df` assigns to each identity
present in both endpoints the value `valueA + (valueB - valueA) * t`, to
each identity present in only one endpoint its single known value
unchanged, and drops an identity before ranking only when it has no
value in either endpoint. -/
theorem interpolate_df_value_semantics (A B : List Row) (t : ℚ)
    (ht0 : 0 ≤ t) (ht1 : t ≤ 1) :
    (∀ id rA rB, lookupRow A id = some rA → lookupRow B id = some rB →
        ∃ r ∈ interpolate_df A B t,
          r.iso3 = id ∧ r.life = rA.life + (rB.life - rA.life) * t)
    ∧ (∀ id rA, lookupRow A id = some rA → lookupRow B id = none →
        ∃ r ∈ interpolate_df A B t, r.iso3 = id ∧ r.life = rA.life)
    ∧ (∀ id rB, lookupRow A id = none → lookupRow B id = some rB →
        ∃ r ∈ interpolate_df A B t, r.iso3 = id ∧ r.life = rB.life)
    ∧ (∀ id, lookupRow A id = none → lookupRow B id = none →
        ∀ r ∈ interpolate_df A B t, r.iso3 ≠ id) := by
  refine ⟨?_, ?_, ?_, interp_not_mem A B t⟩
  · intro id rA rB h0 h1
    obtain ⟨r, hr, h⟩ := interp_mem_both A B t id rA rB h0 h1
    exact ⟨r, hr, h.1, h.2.1⟩
  · intro id rA h0 h1
    obtain ⟨r, hr, h⟩ := interp_mem_left A B t id rA h0 h1
    exact ⟨r, hr, h.1, h.2.1⟩
  · intro id rB h0 h1
    obtain ⟨r, hr, h⟩ := interp_mem_right A B t id rB h0 h1
    exact ⟨r, hr, h.1, h.2.1⟩

/-- Witness for C2: at `t = 1/2`, an identity present in both endpoints
(81 and 82) gets the blend 81.5, and one present only in the first
endpoint keeps its value 80. -/
theorem interpolate_df_value_semantics_witness :
    (∃ r ∈ interpolate_df [⟨"JPN", 81, "Asia"⟩, ⟨"FRA", 80, "Europe"⟩]
        [⟨"JPN", 82, "Asia"⟩] (1/2),
      r.iso3 = "JPN" ∧ r.life = 81 + (82 - 81) * (1/2))
    ∧ (∃ r ∈ interpolate_df [⟨"JPN", 81, "Asia"⟩, ⟨"FRA", 80, "Europe"⟩]
        [⟨"JPN", 82, "Asia"⟩] (1/2),
      r.iso3 = "FRA" ∧ r.life = 80) := by
  have h := interpolate_df_value_semantics
    [⟨"JPN", 81, "Asia"⟩, ⟨"FRA", 80, "Europe"⟩] [⟨"JPN", 82, "Asia"⟩] (1/2)
    (by norm_num) (by norm_num)
  exact ⟨h.1 "JPN" ⟨"JPN", 81, "Asia"⟩ ⟨"JPN", 82, "Asia"⟩ (by rfl) (by rfl),
    h.2.1 "FRA" ⟨"FRA", 80, "Europe"⟩ (by rfl) (by rfl)⟩

/-- C3: for every `t ∈ [0,1]` and duplicate-free endpoint keys, the
ranks in `interpolate_df A B t` are exactly `1..N` in list order (dense,
no gaps or duplicates), where the result holds every identity of the
union of the endpoints exactly once, and the rows are ordered by
descending interpolated value. -/
theorem interpolate_df_rank_dense (A B : List Row) (t : ℚ)
    (ht0 : 0 ≤ t) (ht1 : t ≤ 1)
    (hA : (A.map Row.iso3).Nodup) (hB : (B.map Row.iso3).Nodup) :
    (interpolate_df A B t).map RankedRow.rank
        = List.range' 1 (interpolate_df A B t).length
    ∧ ((interpolate_df A B t).map RankedRow.iso3).Nodup
    ∧ (∀ id, id ∈ (interpolate_df A B t).map RankedRow.iso3
        ↔ id ∈ A.map Row.iso3 ∨ id ∈ B.map Row.iso3)
    ∧ (interpolate_df A B t).Pairwise
        (fun a b => RankedRow.life b ≤ RankedRow.life a) := by
  refine ⟨?_, interp_keys_nodup A B t hA hB, fun id => interp_keys_mem A B t id, ?_⟩
  · rw [interpolate_df_eq, rank_df_map_rank, ← rank_df_length]
  · rw [interpolate_df_eq]
    exact rank_df_sorted _

/-- Witness for C3 at a concrete pair with entity churn. -/
theorem interpolate_df_rank_dense_witness :
    (interpolate_df [⟨"JPN", 81, "Asia"⟩, ⟨"FRA", 80, "Europe"⟩]
          [⟨"JPN", 82, "Asia"⟩, ⟨"USA", 77, "North America"⟩] (1/2)).map
        RankedRow.rank
      = List.range' 1 (interpolate_df [⟨"JPN", 81, "Asia"⟩, ⟨"FRA", 80, "Europe"⟩]
          [⟨"JPN", 82, "Asia"⟩, ⟨"USA", 77, "North America"⟩] (1/2)).length
    ∧ ((interpolate_df [⟨"JPN", 81, "Asia"⟩, ⟨"FRA", 80, "Europe"⟩]
          [⟨"JPN", 82, "Asia"⟩, ⟨"USA", 77, "North America"⟩] (1/2)).map
        RankedRow.iso3).Nodup := by
  have h := interpolate_df_rank_dense
    [⟨"JPN", 81, "Asia"⟩, ⟨"FRA", 80, "Europe"⟩]
    [⟨"JPN", 82, "Asia"⟩, ⟨"USA", 77, "North America"⟩] (1/2)
    (by norm_num) (by norm_num) (by decide) (by decide)
  exact ⟨h.1, h.2.1⟩

/-- C7 counterexample: for an identity present only in B, the category
is NOT taken from B — with `A = []` and `B = [("JPN", 80, "Asia")]`, the
interpolated row carries the default category `"Other"`, not `"Asia"`,
refuting the claimed A-then-B-then-default precedence. -/
theorem interpolate_df_category_counterexample :
    (interpolate_df [] [⟨"JPN", 80, "Asia"⟩] (1/2)).map RankedRow.continent
        = ["Other"]
    ∧ ("Other" : String) ≠ "Asia" := by
  exact ⟨by decide, by decide⟩

/-- C7 amended: the category of each result entity is taken from A when
the identity is present in A, and is the default `"Other"` category
otherwise (B's category is never consulted); category is never
interpolated. -/
theorem interpolate_df_category_semantics (A B : List Row) (t : ℚ) :
    (∀ id rA, lookupRow A id = some rA →
        ∃ r ∈ interpolate_df A B t, r.iso3 = id ∧ r.continent = rA.continent)
    ∧ (∀ r ∈ interpolate_df A B t,
        lookupRow A r.iso3 = none → r.continent = "Other") := by
  refine ⟨?_, interp_continent_of_not_left A B t⟩
  intro id rA h0
  cases h1 : lookupRow B id with
  | some rB =>
      obtain ⟨r, hr, h⟩ := interp_mem_both A B t id rA rB h0 h1
      exact ⟨r, hr, h.1, h.2.2⟩
  | none =>
      obtain ⟨r, hr, h⟩ := interp_mem_left A B t id rA h0 h1
      exact ⟨r, hr, h.1, h.2.2⟩

/-- Witness for amended C7: an identity present in A keeps A's
category. -/
theorem interpolate_df_category_semantics_witness :
    ∃ r ∈ interpolate_df [⟨"FRA", 80, "Europe"⟩] [⟨"JPN", 82, "Asia"⟩] (1/2),
      r.iso3 = "FRA" ∧ r.continent = "Europe" :=
  (interpolate_df_category_semantics [⟨"FRA", 80, "Europe"⟩]
    [⟨"JPN", 82, "Asia"⟩] (1/2)).1 "FRA" ⟨"FRA", 80, "Europe"⟩ (by rfl)

/-- C8: for every identity common to both endpoints, `interpolate_df`
at `t = 0` reproduces A's value and at `t = 1` reproduces B's value
(exactly, in the rational model). -/
theorem interpolate_df_endpoints (A B : List Row) (id : String) (rA rB : Row)
    (hA : lookupRow A id = some rA) (hB : lookupRow B id = some rB) :
    (∃ r ∈ interpolate_df A B 0, r.iso3 = id ∧ r.life = rA.life)
    ∧ (∃ r ∈ interpolate_df A B 1, r.iso3 = id ∧ r.life = rB.life) := by
  constructor
  · obtain ⟨r, hr, h⟩ := interp_mem_both A B 0 id rA rB hA hB
    exact ⟨r, hr, h.1, by rw [h.2.1]; ring⟩
  · obtain ⟨r, hr, h⟩ := interp_mem_both A B 1 id rA rB hA hB
    exact ⟨r, hr, h.1, by rw [h.2.1]; ring⟩

/-- Witness for C8 on a concrete common identity. -/
theorem interpolate_df_endpoints_witness :
    (∃ r ∈ interpolate_df [⟨"JPN", 81, "Asia"⟩] [⟨"JPN", 82, "Asia"⟩] 0,
      r.iso3 = "JPN" ∧ r.life = 81)
    ∧ (∃ r ∈ interpolate_df [⟨"JPN", 81, "Asia"⟩] [⟨"JPN", 82, "Asia"⟩] 1,
      r.iso3 = "JPN" ∧ r.life = 82) :=
  interpolate_df_endpoints [⟨"JPN", 81, "Asia"⟩] [⟨"JPN", 82, "Asia"⟩] "JPN"
    ⟨"JPN", 81, "Asia"⟩ ⟨"JPN", 82, "Asia"⟩ (by rfl) (by rfl)

/-- C9: ranking is idempotent — applying the two ranking lines
(descending stable sort on `life`, then `rank = index + 1`) to an
already-ranked table reproduces exactly the same rank assignment, ties
keeping their original retrieval order. -/
theorem rank_df_idempotent (df : List Row) : rerank_df (rank_df df) = rank_df df := by
  rw [rerank_df, rank_df,
    sortDescBy_of_sorted RankedRow.life _
      (assignRanks_pairwise_life (sortDescBy_sorted Row.life df)),
    assignRanks_map_toRow]

/-- C4: the moved set contains exactly the identities of the visible
slice (current top-`top_n` rows by value) that also appear in the
previous ranked table with `|previousRank - currentRank| ≥ alpha`;
identities absent from the previous table are never marked. -/
theorem render_frame_moved_spec (cur prev : List RankedRow) (alpha top_n : ℕ)
    (id : String) (hnd : (prev.map RankedRow.iso3).Nodup) :
    id ∈ render_frame_moved cur (some prev) alpha top_n ↔
      ∃ r ∈ (sortDescBy RankedRow.life cur).take top_n, r.iso3 = id ∧
        ∃ p ∈ prev, p.iso3 = id
          ∧ alpha ≤ ((p.rank : ℤ) - (r.rank : ℤ)).natAbs := by
  by_cases hp : prev = []
  · subst hp
    simp [render_frame_moved]
  · rw [render_frame_moved]
    simp only [hp, if_neg, if_false]
    rw [List.mem_filterMap]
    constructor
    · rintro ⟨r, hr, hfr⟩
      cases hf : prev.find? (fun p => p.iso3 == r.iso3) with
      | none => rw [hf] at hfr; exact absurd hfr (by simp)
      | some p =>
        rw [hf] at hfr
        by_cases hcond : alpha ≤ ((p.rank : ℤ) - (r.rank : ℤ)).natAbs
        · have hid : r.iso3 = id := by simpa [hcond] using hfr
          have hpk : p.iso3 = r.iso3 := by
            have := List.find?_some hf
            simpa using this
          exact ⟨r, hr, hid, p, List.mem_of_find?_eq_some hf,
            hpk.trans hid, hcond⟩
        · simp [hcond] at hfr
    · rintro ⟨r, hr, hid, p, hpmem, hpk, hcond⟩
      refine ⟨r, hr, ?_⟩
      cases hf : prev.find? (fun q => q.iso3 == r.iso3) with
      | none =>
        have hnone := List.find?_eq_none.mp hf p hpmem
        simp [hpk, hid] at hnone
      | some q =>
        have hqmem := List.mem_of_find?_eq_some hf
        have hqk : q.iso3 = r.iso3 := by
          have := List.find?_some hf
          simpa using this
        have hqp : q = p := by
          refine List.inj_on_of_nodup_map hnd hqmem hpmem ?_
          rw [hqk, hid, hpk]
        simp [hqp, hcond, hid]

/-- Witness for C4: with previous ranks `A:1, B:2, C:3`, current ranks
`A:3, B:2, C:1` and threshold 2, the moved set is exactly `{C, A}` and
excludes `B`. -/
theorem render_frame_moved_spec_witness :
    render_frame_moved
        [⟨"CCC", 90, "Asia", 1⟩, ⟨"BBB", 80, "Asia", 2⟩, ⟨"AAA", 70, "Asia", 3⟩]
        (some [⟨"AAA", 90, "Asia", 1⟩, ⟨"BBB", 80, "Asia", 2⟩,
          ⟨"CCC", 70, "Asia", 3⟩]) 2 40
      = ["CCC", "AAA"]
    ∧ ("AAA" ∈ render_frame_moved
        [⟨"CCC", 90, "Asia", 1⟩, ⟨"BBB", 80, "Asia", 2⟩, ⟨"AAA", 70, "Asia", 3⟩]
        (some [⟨"AAA", 90, "Asia", 1⟩, ⟨"BBB", 80, "Asia", 2⟩,
          ⟨"CCC", 70, "Asia", 3⟩]) 2 40 ↔
      ∃ r ∈ (sortDescBy RankedRow.life
          [⟨"CCC", 90, "Asia", 1⟩, ⟨"BBB", 80, "Asia", 2⟩,
            ⟨"AAA", 70, "Asia", 3⟩]).take 40, r.iso3 = "AAA" ∧
        ∃ p ∈ ([⟨"AAA", 90, "Asia", 1⟩, ⟨"BBB", 80, "Asia", 2⟩,
          ⟨"CCC", 70, "Asia", 3⟩] : List RankedRow), p.iso3 = "AAA"
          ∧ 2 ≤ ((p.rank : ℤ) - (r.rank : ℤ)).natAbs) := by
  refine ⟨by decide, render_frame_moved_spec _ _ 2 40 "AAA" (by decide)⟩

/-- C6 counterexample: years 0 and 1 both have real tables, yet the
frame loop of `main_race` never emits the real table of year 1 as a
frame — after the interpolation steps of the pair (0,1) it moves
straight to the `t = 0` interpolated frame of the pair (1,2); only the
final year's real table is emitted. -/
theorem main_race_frames_counterexample :
    cexYdfs 0 = some [⟨"XXX", 1, "Asia", 1⟩]
    ∧ cexYdfs 1 = some [⟨"XXX", 2, "Asia", 1⟩]
    ∧ ¬ ([(⟨"XXX", 2, "Asia", 1⟩ : RankedRow)]
        ∈ (main_race_frames cexYdfs 0 2 1).map FrameRec.df) := by
  refine ⟨rfl, rfl, ?_⟩
  have hframes : (main_race_frames cexYdfs 0 2 1).map FrameRec.df
      = [[⟨"XXX", 1, "Asia", 1⟩],
         [⟨"XXX", 2, "Asia", 1⟩, ⟨"YYY", 1, "Other", 2⟩],
         [⟨"XXX", 3, "Asia", 1⟩, ⟨"YYY", 1, "Asia", 2⟩]] := by
    norm_num [main_race_frames, racePairs, emitAll, pairStepDfs, yearRange,
      interpolate_df_eq, rank_df, assignRanks, sortDescBy, insertDescBy,
      interpRowLeft, lookupRow, outerMerge, cexYdfs, List.range_succ,
      RankedRow.toRow, List.find?]
  rw [hframes]
  intro hmem
  rcases List.mem_cons.mp hmem with h | hmem
  · exact absurd (congrArg (fun l => (l.headD ⟨"", 0, "", 0⟩).life) h) (by norm_num)
  rcases List.mem_cons.mp hmem with h | hmem
  · exact absurd (congrArg List.length h) (by norm_num)
  rcases List.mem_cons.mp hmem with h | hmem
  · exact absurd (congrArg List.length h) (by norm_num)
  · simp at hmem

/-- C6 amended: for every adjacent pair of present years the sequencer
emits exactly the `S` interpolation-step frames at `t = 0/S … (S-1)/S`,
advancing the previous-frame reference to each emitted frame; the real
snapshot is emitted as one frame of its own only for the final year of
the range (when present), not after each pair. -/
theorem main_race_frames_spec (ydfs : Int → Option (List RankedRow))
    (start endY : Int) (steps : ℕ) (dfLast : List RankedRow)
    (h : ydfs endY = some dfLast) :
    (main_race_frames ydfs start endY steps).map FrameRec.df
      = interpFrameDfs ydfs steps (yearRange start endY) ++ [dfLast]
    ∧ prevChainOk none (main_race_frames ydfs start endY steps) = true := by
  obtain ⟨hm, hc, hl⟩ := racePairs_spec ydfs steps (yearRange start endY) none
  rw [main_race_frames, h]
  constructor
  · rw [List.map_append, hm]
    rfl
  · rw [prevChainOk_append, hc, ← hl]
    simp [prevChainOk]

/-- Witness for amended C6 at the concrete three-year schedule. -/
theorem main_race_frames_spec_witness :
    (main_race_frames cexYdfs 0 2 2).map FrameRec.df
        = interpFrameDfs cexYdfs 2 (yearRange 0 2)
            ++ [[⟨"XXX", 3, "Asia", 1⟩, ⟨"YYY", 1, "Asia", 2⟩]]
      ∧ prevChainOk none (main_race_frames cexYdfs 0 2 2) = true :=
  main_race_frames_spec cexYdfs 0 2 2
    [⟨"XXX", 3, "Asia", 1⟩, ⟨"YYY", 1, "Asia", 2⟩] rfl

/-- C5: `find_latest_available_year` returns the first year among
`candidate, candidate-1, …` (up to `max_back` probes) whose probe yields
a non-empty table, and `candidate - max_back` when every probed year in
the window is empty. -/
theorem find_latest_available_year_spec (f : Int → List Row) (st : CacheState)
    (candidate : Int) (max_back k : ℕ) :
    (k < max_back →
      (∀ j : ℕ, j < k → (fetch_year_df f st (candidate - (j : Int))).1 = []) →
      (fetch_year_df f st (candidate - (k : Int))).1 ≠ [] →
      find_latest_available_year f st candidate max_back
        = candidate - (k : Int))
    ∧ ((∀ j : ℕ, j < max_back →
          (fetch_year_df f st (candidate - (j : Int))).1 = []) →
      find_latest_available_year f st candidate max_back
        = candidate - (max_back : Int)) :=
  ⟨fun hk h hne => find_latest_go_found f k max_back st candidate hk h hne,
   fun h => find_latest_go_none f max_back st candidate h⟩

/-- Witness for C5: with candidate 2021 and `max_back = 6`, years
2019–2021 empty and 2018 populated, the resolver returns 2018. -/
theorem find_latest_available_year_spec_witness :
    find_latest_available_year resolverFetch [] 2021 6 = 2018 := by
  have h := (find_latest_available_year_spec resolverFetch [] 2021 6 3).1
    (by norm_num)
    (fun j hj => by interval_cases j <;> decide)
    (by decide)
  simpa using h

end GeoLifeMap
